import Mathlib

/-!
Shallow embedding of the change-set interval merging and syntax-region
extraction core (src/change_set.rs and src/code_region.rs).

Line numbers, byte offsets and lengths are `Nat` (the Rust code uses
`usize`; none of the operations modelled here can overflow, since they
only ever add 1 to values that index into in-memory data).
Rust `Range<usize>` is modelled as `Nat × Nat` (start, end), half-open.
Rust panics (out-of-bounds slice indexing) are modelled as `Option.none`.
-/

/-- Mirrors `ChangeSet` (change_set.rs): a file name, the owned source
split into lines, and the recorded touched line numbers in insertion
order. -/
structure ChangeSet where
  filename : String
  code : List String
  lines : List Nat
deriving Repr, DecidableEq

/-- Mirrors `ChangeSet::add_line`: push a line number onto `lines`. -/
def ChangeSet.add_line (cs : ChangeSet) (line_number : Nat) : ChangeSet :=
  { cs with lines := cs.lines ++ [line_number] }

/-- The loop of `ChangeSet::ranges` (change_set.rs:31-38), after `start`
has been bound to the first element.  `next` is the previously seen
element; an interval `start..next+1` is pushed whenever the next element
is not `next + 1`, and a final interval `start..next+1` is pushed when
the input is exhausted.  `start` is never changed, exactly as in the
source (where it is an immutable binding). -/
def rangesGo (start next : Nat) : List Nat → List (Nat × Nat)
  | [] => [(start, next + 1)]
  | e :: es =>
    if next + 1 ≠ e then (start, next + 1) :: rangesGo start e es
    else rangesGo start e es

/-- Mirrors `ChangeSet::ranges` (change_set.rs:23-41). -/
def ChangeSet.ranges (cs : ChangeSet) : List (Nat × Nat) :=
  match cs.lines with
  | [] => []
  | start :: rest => rangesGo start start rest

/-- Rust `Vec` slicing `code[r]`: defined iff `r.1 ≤ r.2 ≤ code.length`
(otherwise Rust panics, modelled as `none`). -/
def sliceRange (code : List String) (r : Nat × Nat) : Option (List String) :=
  if r.1 ≤ r.2 ∧ r.2 ≤ code.length then some ((code.drop r.1).take (r.2 - r.1))
  else none

/-- The `map`/`collect` iteration of `ChangeSet::text_ranges`: joins each
slice with the empty separator; a panicking slice aborts the whole call
(`none`). -/
def textRangesGo (code : List String) : List (Nat × Nat) → Option (List String)
  | [] => some []
  | r :: rs =>
    match sliceRange code r with
    | none => none
    | some seg => (textRangesGo code rs).map (fun rest => String.join seg :: rest)

/-- Mirrors `ChangeSet::text_ranges` (change_set.rs:43-45):
`self.ranges().iter().map(|r| self.code[r.clone()].join("")).collect()`. -/
def ChangeSet.text_ranges (cs : ChangeSet) : Option (List String) :=
  textRangesGo cs.code (ChangeSet.ranges cs)

/-- A call to the `&self` method `ranges` viewed as a state transformer:
it returns its result together with the (unchanged) receiver. -/
def ChangeSet.ranges_call (cs : ChangeSet) : List (Nat × Nat) × ChangeSet :=
  (ChangeSet.ranges cs, cs)

/-- `true` iff line `x` lies in some interval of `rs`. -/
def covers (rs : List (Nat × Nat)) (x : Nat) : Bool :=
  rs.any (fun r => decide (r.1 ≤ x) && decide (x < r.2))

/-- How many intervals of `rs` contain line `x`. -/
def coverCount (rs : List (Nat × Nat)) (x : Nat) : Nat :=
  (rs.filter (fun r => decide (r.1 ≤ x) && decide (x < r.2))).length

/-- Number of maximal runs of consecutive integers in a non-decreasing
sequence: a new run starts whenever the next value exceeds its
predecessor by more than one. -/
def numRuns : List Nat → Nat
  | [] => 0
  | [_] => 1
  | a :: b :: rest => numRuns (b :: rest) + (if b ≤ a + 1 then 0 else 1)

/-- Mirrors `has_intersection` (code_region.rs:4-6) on Rust
`Range<usize>`: `second.contains(&first.start) || first.contains(&second.start)`,
where `Range::contains` is `start ≤ x ∧ x < end`. -/
def has_intersection (first second : Nat × Nat) : Bool :=
  (decide (second.1 ≤ first.1 ∧ first.1 < second.2)) ||
  (decide (first.1 ≤ second.1 ∧ second.1 < first.2))

/-- A tree-sitter node as the extraction code observes it: `kind`,
`start_position().row`, `end_position().row`, `start_byte()`,
`end_byte()`. -/
structure TSNode where
  kind : String
  startRow : Nat
  endRow : Nat
  startByte : Nat
  endByte : Nat
deriving Repr, DecidableEq

/-- Mirrors `CodeRegion` (code_region.rs): the owned source text (as its
byte sequence) together with its parse tree.  The tree is modelled by
what `extract_next_from_range` observes of it: the node that the cursor
walk `goto_first_child_for_point(Point::new(s, 0))` lands on, as a
function of `s` (the walk is deterministic on the immutable tree and the
column is always 0).  The three invariants are tree-sitter guarantees
for a tree parsed from this very source: a node's start position is not
after its end position, and its byte span lies inside the source. -/
structure CodeRegion where
  code : List Nat
  lookup : Nat → TSNode
  wf_rows : ∀ s, (lookup s).startRow ≤ (lookup s).endRow
  wf_bytes : ∀ s, (lookup s).startByte ≤ (lookup s).endByte
  wf_len : ∀ s, (lookup s).endByte ≤ code.length

/-- Mirrors `CodeRegion::extract_next_from_range` (code_region.rs:27-39):
walk to the node for `Point(range.start, 0)`, compare its row span
`start_position().row .. end_position().row` with the query range, and
return it iff the two ranges intersect. -/
def extract_next_from_range (cr : CodeRegion) (r : Nat × Nat) : Option TSNode :=
  if has_intersection r ((cr.lookup r.1).startRow, (cr.lookup r.1).endRow) then
    some (cr.lookup r.1)
  else
    none

/-- Mirrors `CodeRegion::extract_code_from_node` (code_region.rs:41-45):
the byte slice `code.as_bytes()[start_byte .. end_byte]` of the node
(in-bounds by `wf_bytes`/`wf_len`, so the Rust slicing cannot panic). -/
def extract_code_from_node (cr : CodeRegion) (function_node : TSNode) : List Nat :=
  (cr.code.drop function_node.startByte).take
    (function_node.endByte - function_node.startByte)

/-- Mirrors the `while` loop of `CodeRegion::extract_compounds_by`
(code_region.rs:47-63): while the source is non-empty and the remaining
range is non-empty, query the tree at the range start; push the node's
text iff the filter accepts it; either way restart just past the node's
end row; stop on a no-match. -/
def extract_compounds_by (cr : CodeRegion) (filter : TSNode → Bool)
    (r : Nat × Nat) : List (List Nat) :=
  if hguard : cr.code.isEmpty = true ∨ r.2 ≤ r.1 then []
  else
    match hnext : extract_next_from_range cr r with
    | some entity =>
      if filter entity then
        extract_code_from_node cr entity ::
          extract_compounds_by cr filter (entity.endRow + 1, r.2)
      else
        extract_compounds_by cr filter (entity.endRow + 1, r.2)
    | none => []
termination_by r.2 - r.1
decreasing_by
  all_goals
    have hwf := cr.wf_rows r.1
    simp only [extract_next_from_range] at hnext
    split at hnext
    · next hc =>
        cases hnext
        simp only [has_intersection, Bool.or_eq_true, decide_eq_true_eq] at hc
        omega
    · exact absurd hnext (by simp)

/-- Mirrors `CodeRegion::extract_compound` (code_region.rs:65-67): the
unfiltered walk. -/
def extract_compound (cr : CodeRegion) (r : Nat × Nat) : List (List Nat) :=
  extract_compounds_by cr (fun _ => true) r

/-- Mirrors `CodeRegion::extract_functions` (code_region.rs:69-71):
keep only nodes whose kind is `function_definition`. -/
def extract_functions (cr : CodeRegion) (r : Nat × Nat) : List (List Nat) :=
  extract_compounds_by cr (fun n => n.kind == "function_definition") r

/-- The sequence of nodes the walk of `extract_compounds_by` matches
(the filter does not influence the walk, only which texts are kept). -/
def extract_nodes (cr : CodeRegion) (r : Nat × Nat) : List TSNode :=
  if hguard : cr.code.isEmpty = true ∨ r.2 ≤ r.1 then []
  else
    match hnext : extract_next_from_range cr r with
    | some entity => entity :: extract_nodes cr (entity.endRow + 1, r.2)
    | none => []
termination_by r.2 - r.1
decreasing_by
  all_goals
    have hwf := cr.wf_rows r.1
    simp only [extract_next_from_range] at hnext
    split at hnext
    · next hc =>
        cases hnext
        simp only [has_intersection, Bool.or_eq_true, decide_eq_true_eq] at hc
        omega
    · exact absurd hnext (by simp)

/-- Fuel-indexed version of the extraction loop, used to bound its
iteration count: `none` means the fuel ran out before the loop finished. -/
def extractCompoundsFuel (cr : CodeRegion) (filter : TSNode → Bool) :
    Nat → Nat × Nat → Option (List (List Nat))
  | fuel, r =>
    if cr.code.isEmpty = true ∨ r.2 ≤ r.1 then some []
    else
      match extract_next_from_range cr r with
      | none => some []
      | some entity =>
        match fuel with
        | 0 => none
        | fuel' + 1 =>
          (extractCompoundsFuel cr filter fuel' (entity.endRow + 1, r.2)).map
            (fun rest =>
              if filter entity then extract_code_from_node cr entity :: rest
              else rest)

/-- A call to the `&self` method `extract_compound` viewed as a state
transformer: it returns its result together with the (unchanged)
receiver. -/
def extract_compound_call (cr : CodeRegion) (r : Nat × Nat) :
    List (List Nat) × CodeRegion :=
  (extract_compound cr r, cr)

/-- Concrete node for test fixtures: a one-line function definition
spanning row 0 and bytes 0..3 of its source. -/
def nodeW : TSNode := ⟨"function_definition", 0, 0, 0, 3⟩

/-- Concrete `CodeRegion` fixture: a 4-byte source whose tree lookup
always lands on `nodeW`. -/
def crW : CodeRegion where
  code := [104, 105, 33, 10]
  lookup := fun _ => nodeW
  wf_rows := fun _ => by show nodeW.startRow ≤ nodeW.endRow; decide
  wf_bytes := fun _ => by show nodeW.startByte ≤ nodeW.endByte; decide
  wf_len := fun _ => by show nodeW.endByte ≤ 4; decide

/-- Degenerate node for the empty-source fixture. -/
def nodeE : TSNode := ⟨"translation_unit", 0, 0, 0, 0⟩

/-- Concrete `CodeRegion` fixture with empty source text. -/
def crE : CodeRegion where
  code := []
  lookup := fun _ => nodeE
  wf_rows := fun _ => by show nodeE.startRow ≤ nodeE.endRow; decide
  wf_bytes := fun _ => by show nodeE.startByte ≤ nodeE.endByte; decide
  wf_len := fun _ => by show nodeE.endByte ≤ 0; decide

/-- Concrete `ChangeSet` fixture: a 4-line C source touching only
line 2 (the `println` line), as in the repository's
`retrieve_changes_code` test. -/
def csW4 : ChangeSet :=
  ⟨"main.c",
   ["#include <stdio.h>", "int main() \x7b", "    println(\"%s\", \"foo\");", "\x7d"],
   [2]⟩

/-! ## Helper lemmas -/

/-- When the tree query yields a node, the node's end row is at least the
query's start row (Rust `while` loop progress fact). -/
theorem extract_next_lower {cr : CodeRegion} {r : Nat × Nat} {n : TSNode}
    (h : extract_next_from_range cr r = some n) : r.1 < n.endRow + 1 := by
  have hwf := cr.wf_rows r.1
  simp only [extract_next_from_range] at h
  split at h
  · next hc =>
      cases h
      simp only [has_intersection, Bool.or_eq_true, decide_eq_true_eq] at hc
      omega
  · exact absurd h (by simp)

/-- A node returned by the tree query is the cursor-walk result at the
query's start row. -/
theorem extract_next_eq_lookup {cr : CodeRegion} {r : Nat × Nat} {n : TSNode}
    (h : extract_next_from_range cr r = some n) : n = cr.lookup r.1 := by
  simp only [extract_next_from_range] at h
  split at h
  · cases h; rfl
  · exact absurd h (by simp)

/-- Unfolding: the loop exits at once on empty source or empty range. -/
theorem extract_compounds_by_stop (cr : CodeRegion) (f : TSNode → Bool)
    (r : Nat × Nat) (hg : cr.code.isEmpty = true ∨ r.2 ≤ r.1) :
    extract_compounds_by cr f r = [] := by
  rw [extract_compounds_by.eq_def, dif_pos hg]

/-- Unfolding: the loop exits on a no-match. -/
theorem extract_compounds_by_nomatch (cr : CodeRegion) (f : TSNode → Bool)
    (r : Nat × Nat) (hg : ¬(cr.code.isEmpty = true ∨ r.2 ≤ r.1))
    (hn : extract_next_from_range cr r = none) :
    extract_compounds_by cr f r = [] := by
  rw [extract_compounds_by.eq_def, dif_neg hg]
  split
  · next entity' heq => rw [hn] at heq; cases heq
  · rfl

/-- Unfolding: one iteration of the loop on a match. -/
theorem extract_compounds_by_step (cr : CodeRegion) (f : TSNode → Bool)
    (r : Nat × Nat) (entity : TSNode)
    (hg : ¬(cr.code.isEmpty = true ∨ r.2 ≤ r.1))
    (hn : extract_next_from_range cr r = some entity) :
    extract_compounds_by cr f r =
      if f entity then
        extract_code_from_node cr entity ::
          extract_compounds_by cr f (entity.endRow + 1, r.2)
      else extract_compounds_by cr f (entity.endRow + 1, r.2) := by
  rw [extract_compounds_by.eq_def, dif_neg hg]
  split
  · next entity' heq =>
      rw [hn] at heq
      cases heq
      rfl
  · next heq => rw [hn] at heq; cases heq

/-- Unfolding for the node-sequence view: stop case. -/
theorem extract_nodes_stop (cr : CodeRegion) (r : Nat × Nat)
    (hg : cr.code.isEmpty = true ∨ r.2 ≤ r.1) : extract_nodes cr r = [] := by
  rw [extract_nodes.eq_def, dif_pos hg]

/-- Unfolding for the node-sequence view: no-match case. -/
theorem extract_nodes_nomatch (cr : CodeRegion) (r : Nat × Nat)
    (hg : ¬(cr.code.isEmpty = true ∨ r.2 ≤ r.1))
    (hn : extract_next_from_range cr r = none) : extract_nodes cr r = [] := by
  rw [extract_nodes.eq_def, dif_neg hg]
  split
  · next entity' heq => rw [hn] at heq; cases heq
  · rfl

/-- Unfolding for the node-sequence view: match case. -/
theorem extract_nodes_step (cr : CodeRegion) (r : Nat × Nat) (entity : TSNode)
    (hg : ¬(cr.code.isEmpty = true ∨ r.2 ≤ r.1))
    (hn : extract_next_from_range cr r = some entity) :
    extract_nodes cr r = entity :: extract_nodes cr (entity.endRow + 1, r.2) := by
  rw [extract_nodes.eq_def, dif_neg hg]
  split
  · next entity' heq =>
      rw [hn] at heq
      cases heq
      rfl
  · next heq => rw [hn] at heq; cases heq

/-- Fuel `range.end - range.start` always suffices for the extraction
loop: the fuelled loop finishes and agrees with the loop itself. -/
theorem extractCompoundsFuel_eq (cr : CodeRegion) (f : TSNode → Bool)
    (r : Nat × Nat) :
    ∀ fuel : Nat, r.2 - r.1 ≤ fuel →
      extractCompoundsFuel cr f fuel r = some (extract_compounds_by cr f r) := by
  induction r using extract_compounds_by.induct cr f with
  | case1 x hg =>
    intro fuel hf
    rw [extract_compounds_by_stop cr f x hg, extractCompoundsFuel, if_pos hg]
  | case2 x hg entity hn hfil ih =>
    intro fuel hf
    have hlow := extract_next_lower hn
    match fuel with
    | 0 => omega
    | fuel' + 1 =>
      rw [extractCompoundsFuel, if_neg hg, hn]
      rw [extract_compounds_by_step cr f x entity hg hn, if_pos hfil]
      simp only [ih fuel' (by simp only []; omega), Option.map_some']
      simp [hfil]
  | case3 x hg entity hn hfil ih =>
    intro fuel hf
    have hlow := extract_next_lower hn
    match fuel with
    | 0 => omega
    | fuel' + 1 =>
      rw [extractCompoundsFuel, if_neg hg, hn]
      rw [extract_compounds_by_step cr f x entity hg hn, if_neg hfil]
      simp only [ih fuel' (by simp only []; omega), Option.map_some']
      simp [hfil]
  | case4 x hg hn =>
    intro fuel hf
    rw [extract_compounds_by_nomatch cr f x hg hn, extractCompoundsFuel,
      if_neg hg, hn]

/-- The texts the loop returns are exactly the matched nodes that pass
the filter, in walk order, each rendered by `extract_code_from_node`. -/
theorem extract_compounds_by_eq_nodes (cr : CodeRegion) (f : TSNode → Bool)
    (r : Nat × Nat) :
    extract_compounds_by cr f r =
      ((extract_nodes cr r).filter f).map (extract_code_from_node cr) := by
  induction r using extract_compounds_by.induct cr f with
  | case1 x hg =>
    rw [extract_compounds_by_stop cr f x hg, extract_nodes_stop cr x hg]
    rfl
  | case2 x hg entity hn hfil ih =>
    rw [extract_compounds_by_step cr f x entity hg hn, if_pos hfil,
      extract_nodes_step cr x entity hg hn, ih]
    simp [hfil]
  | case3 x hg entity hn hfil ih =>
    rw [extract_compounds_by_step cr f x entity hg hn, if_neg hfil,
      extract_nodes_step cr x entity hg hn, ih]
    simp [hfil]
  | case4 x hg hn =>
    rw [extract_compounds_by_nomatch cr f x hg hn, extract_nodes_nomatch cr x hg hn]
    rfl

/-- The first matched node ends at or after the query's start row. -/
theorem extract_nodes_head_lower (cr : CodeRegion) (r : Nat × Nat)
    (n : TSNode) (l : List TSNode) (h : extract_nodes cr r = n :: l) :
    r.1 < n.endRow + 1 := by
  by_cases hg : cr.code.isEmpty = true ∨ r.2 ≤ r.1
  · rw [extract_nodes_stop cr r hg] at h
    cases h
  · cases hn : extract_next_from_range cr r with
    | none => rw [extract_nodes_nomatch cr r hg hn] at h; cases h
    | some entity =>
      rw [extract_nodes_step cr r entity hg hn] at h
      cases h
      exact extract_next_lower hn

/-- Matched nodes come out in strictly increasing end-row order. -/
theorem extract_nodes_chain (cr : CodeRegion) (r : Nat × Nat) :
    List.Chain' (fun a b => a.endRow < b.endRow) (extract_nodes cr r) := by
  induction r using extract_nodes.induct cr with
  | case1 x hg => rw [extract_nodes_stop cr x hg]; exact List.chain'_nil
  | case2 x hg entity hn ih =>
    rw [extract_nodes_step cr x entity hg hn]
    rw [List.chain'_cons']
    refine ⟨?_, ih⟩
    intro b hb
    cases htail : extract_nodes cr (entity.endRow + 1, x.2) with
    | nil => rw [htail] at hb; cases hb
    | cons c l =>
      rw [htail] at hb
      simp only [List.head?_cons, Option.mem_def, Option.some.injEq] at hb
      subst hb
      have := extract_nodes_head_lower cr (entity.endRow + 1, x.2) c l htail
      simp only [] at this
      omega
  | case3 x hg hn => rw [extract_nodes_nomatch cr x hg hn]; exact List.chain'_nil

/-- Every matched node is a cursor-walk result, so it satisfies the
tree's span invariants. -/
theorem extract_nodes_are_lookups (cr : CodeRegion) (r : Nat × Nat) :
    ∀ n ∈ extract_nodes cr r, ∃ s, n = cr.lookup s := by
  induction r using extract_nodes.induct cr with
  | case1 x hg =>
    rw [extract_nodes_stop cr x hg]
    intro n hn
    cases hn
  | case2 x hg entity hn ih =>
    rw [extract_nodes_step cr x entity hg hn]
    intro n hmem
    rcases List.mem_cons.mp hmem with heq | htail
    · exact ⟨x.1, heq ▸ extract_next_eq_lookup hn⟩
    · exact ih n htail
  | case3 x hg hn =>
    rw [extract_nodes_nomatch cr x hg hn]
    intro n hn
    cases hn

/-- Length of `ranges()`: one interval per descent in the scan plus the
final one, for strictly increasing input exactly the number of maximal
runs. -/
theorem rangesGo_length (start : Nat) :
    ∀ (rest : List Nat) (next : Nat), List.Chain' (· < ·) (next :: rest) →
      (rangesGo start next rest).length = numRuns (next :: rest) := by
  intro rest
  induction rest with
  | nil => intro next _; rfl
  | cons e es ih =>
    intro next hchain
    rw [List.chain'_cons] at hchain
    obtain ⟨hlt, hchain'⟩ := hchain
    rw [rangesGo]
    by_cases he : next + 1 = e
    · rw [if_neg (by omega), ih e hchain']
      show numRuns (e :: es) = numRuns (next :: e :: es)
      rw [numRuns]
      rw [if_pos (by omega)]
      omega
    · rw [if_pos (by omega)]
      show (rangesGo start e es).length + 1 = numRuns (next :: e :: es)
      rw [ih e hchain', numRuns, if_neg (by omega)]

/-- An out-of-range interval anywhere in the list makes the text-range
iteration fail. -/
theorem textRangesGo_oob (code : List String) :
    ∀ (rs : List (Nat × Nat)) (r : Nat × Nat), r ∈ rs → code.length < r.2 →
      textRangesGo code rs = none := by
  intro rs
  induction rs with
  | nil => intro r hr; cases hr
  | cons r' rs' ih =>
    intro r hr hlen
    rw [textRangesGo]
    rcases List.mem_cons.mp hr with heq | htail
    · subst heq
      rw [sliceRange, if_neg (by omega)]
    · cases hs : sliceRange code r' with
      | none => rfl
      | some seg => rw [ih r htail hlen]; rfl

/-- With every interval in range, the text-range iteration succeeds and
returns the joined slices in order. -/
theorem textRangesGo_ok (code : List String) :
    ∀ rs : List (Nat × Nat), (∀ r ∈ rs, r.1 ≤ r.2 ∧ r.2 ≤ code.length) →
      textRangesGo code rs =
        some (rs.map fun r => String.join ((code.drop r.1).take (r.2 - r.1))) := by
  intro rs
  induction rs with
  | nil => intro _; rfl
  | cons r' rs' ih =>
    intro hall
    rw [textRangesGo, sliceRange, if_pos (hall r' (List.mem_cons_self r' rs'))]
    rw [ih (fun r hr => hall r (List.mem_cons_of_mem r' hr))]
    rfl

/-! ## Claims -/

/-- Claim C1 (code bug): on the non-decreasing input `[1, 3]`,
`ChangeSet::ranges` returns `[[1, 2), [1, 4)]`: the binding `start` is
never moved to the next run, so line 2 — absent from the input — is
covered, and line 1 is covered by two intervals; the claimed
exactly-once coverage of exactly the input's values fails. -/
theorem c1_ranges_coverage_bug :
    ChangeSet.ranges ⟨"", [], [1, 3]⟩ = [(1, 2), (1, 4)] ∧
    covers (ChangeSet.ranges ⟨"", [], [1, 3]⟩) 2 = true ∧
    (2 : Nat) ∉ [1, 3] ∧
    coverCount (ChangeSet.ranges ⟨"", [], [1, 3]⟩) 1 = 2 := by
  decide

/-- Claim C2, counterexample: the input `[1, 1]` is non-decreasing and
its values form one maximal run of consecutive integers, yet
`ChangeSet::ranges` returns two intervals. -/
theorem c2_duplicate_counterexample :
    List.Chain' (· ≤ ·) ([1, 1] : List Nat) ∧
    numRuns [1, 1] = 1 ∧
    (ChangeSet.ranges ⟨"", [], [1, 1]⟩).length = 2 :=
  ⟨by simp [List.chain'_cons], by decide, by decide⟩

/-- Claim C2, amended: for strictly increasing input (duplicates
excluded) the number of intervals returned by `ChangeSet::ranges` equals
the number of maximal runs of consecutive integers; a single element
yields exactly the one interval of length 1. -/
theorem c2_interval_count (cs : ChangeSet) :
    (List.Chain' (· < ·) cs.lines →
      (ChangeSet.ranges cs).length = numRuns cs.lines) ∧
    (∀ a, cs.lines = [a] → ChangeSet.ranges cs = [(a, a + 1)]) := by
  constructor
  · intro hchain
    rw [ChangeSet.ranges]
    cases hl : cs.lines with
    | nil => rfl
    | cons start rest =>
      rw [hl] at hchain
      exact rangesGo_length start rest start hchain
  · intro a hl
    rw [ChangeSet.ranges, hl]
    rfl

/-- Closed instance of `c2_interval_count` at the gap input `[1, 3]`
(two maximal runs, two intervals) and the singleton input `[4]`. -/
theorem c2_interval_count_witness :
    (ChangeSet.ranges ⟨"", [], [1, 3]⟩).length = numRuns [1, 3] ∧
    ChangeSet.ranges ⟨"", [], [4]⟩ = [(4, 5)] :=
  ⟨(c2_interval_count ⟨"", [], [1, 3]⟩).1 (by simp [List.chain'_cons]),
   (c2_interval_count ⟨"", [], [4]⟩).2 4 rfl⟩

/-- Claim C3: when some interval produced by `ranges()` has its upper
bound beyond the stored source's line count, `text_ranges()` surfaces an
error (the Rust slice panic, modelled as `none`): it neither truncates
the slice nor returns text as if the interval were in range. -/
theorem c3_text_ranges_oob (cs : ChangeSet) (r : Nat × Nat)
    (hmem : r ∈ ChangeSet.ranges cs) (hoob : cs.code.length < r.2) :
    ChangeSet.text_ranges cs = none := by
  rw [ChangeSet.text_ranges]
  exact textRangesGo_oob cs.code (ChangeSet.ranges cs) r hmem hoob

/-- Closed instance of `c3_text_ranges_oob`: a one-line source whose
change set touches line 5. -/
theorem c3_text_ranges_oob_witness :
    (5, 6) ∈ ChangeSet.ranges ⟨"main.c", ["int x;"], [5]⟩ ∧
    (⟨"main.c", ["int x;"], [5]⟩ : ChangeSet).code.length < 6 ∧
    ChangeSet.text_ranges ⟨"main.c", ["int x;"], [5]⟩ = none :=
  ⟨by decide, by decide,
   c3_text_ranges_oob ⟨"main.c", ["int x;"], [5]⟩ (5, 6) (by decide) (by decide)⟩

/-- Claim C4: when every interval of `ranges()` lies within the stored
source, `text_ranges()` returns, for each interval in order, the
concatenation of exactly the source lines indexed by that interval
(end-exclusive). -/
theorem c4_text_ranges_exact (cs : ChangeSet)
    (h : ∀ r ∈ ChangeSet.ranges cs, r.1 ≤ r.2 ∧ r.2 ≤ cs.code.length) :
    ChangeSet.text_ranges cs =
      some ((ChangeSet.ranges cs).map
        (fun r => String.join ((cs.code.drop r.1).take (r.2 - r.1)))) := by
  rw [ChangeSet.text_ranges]
  exact textRangesGo_ok cs.code (ChangeSet.ranges cs) h

/-- Closed instance of `c4_text_ranges_exact`: the 4-line source of the
repository's test, touching only line 2, yields exactly that line's
content and nothing else. -/
theorem c4_text_ranges_exact_witness :
    (∀ r ∈ ChangeSet.ranges csW4, r.1 ≤ r.2 ∧ r.2 ≤ csW4.code.length) ∧
    ChangeSet.text_ranges csW4 = some ["    println(\"%s\", \"foo\");"] :=
  ⟨by decide, (c4_text_ranges_exact csW4 (by decide)).trans (by decide)⟩

/-- Claim C5, counterexample to the claim's existential part: there is
no pair of non-empty half-open intervals that overlap in the full sense
(`a.start < b.end` and `b.start < a.end`) on which `has_intersection`
returns `false` — in one dimension the interval with the smaller start
always contains the other's start. -/
theorem c5_no_missed_overlap :
    ¬ ∃ a b : Nat × Nat, a.1 < a.2 ∧ b.1 < b.2 ∧ a.1 < b.2 ∧ b.1 < a.2 ∧
      has_intersection a b = false := by
  rintro ⟨a, b, ha, hb, hab, hba, hfalse⟩
  simp only [has_intersection, Bool.or_eq_false_iff, decide_eq_false_iff_not,
    not_and, not_lt] at hfalse
  omega

/-- Claim C5, amended: for non-empty half-open intervals the
start-containment test of `has_intersection` is exactly full interval
overlap — it detects every overlapping pair and only those, missing
none. -/
theorem c5_start_containment_iff_overlap (a b : Nat × Nat)
    (ha : a.1 < a.2) (hb : b.1 < b.2) :
    has_intersection a b = true ↔ (a.1 < b.2 ∧ b.1 < a.2) := by
  simp only [has_intersection, Bool.or_eq_true, decide_eq_true_eq]
  omega

/-- Closed instance of `c5_start_containment_iff_overlap` on the
overlapping pair `[0, 2)`, `[1, 3)`. -/
theorem c5_overlap_witness :
    has_intersection (0, 2) (1, 3) = true :=
  (c5_start_containment_iff_overlap (0, 2) (1, 3) (by decide) (by decide)).mpr
    (by decide)

/-- Claim C6: the extraction loop terminates — whenever the tree query
yields a node, the remaining range's lower bound strictly increases
while its upper bound stays fixed, so `range.end - range.start` units of
fuel always suffice for the fuelled loop to finish and agree with
`extract_compounds_by`. -/
theorem c6_extraction_terminates (cr : CodeRegion) (f : TSNode → Bool)
    (r : Nat × Nat) (fuel : Nat) :
    (∀ n : TSNode, extract_next_from_range cr r = some n →
      r.1 < n.endRow + 1 ∧ (n.endRow + 1, r.2).2 = r.2) ∧
    (r.2 - r.1 ≤ fuel →
      extractCompoundsFuel cr f fuel r = some (extract_compounds_by cr f r)) :=
  ⟨fun _ h => ⟨extract_next_lower h, rfl⟩,
   fun hf => extractCompoundsFuel_eq cr f r fuel hf⟩

/-- Closed instance of `c6_extraction_terminates` on the concrete
fixture `crW` with range `[0, 2)` and fuel 2. -/
theorem c6_extraction_terminates_witness :
    ((0, 2) : Nat × Nat).1 < nodeW.endRow + 1 ∧
    extractCompoundsFuel crW (fun _ => true) 2 (0, 2) =
      some (extract_compounds_by crW (fun _ => true) (0, 2)) :=
  ⟨((c6_extraction_terminates crW (fun _ => true) (0, 2) 2).1 nodeW
      (by decide)).1,
   (c6_extraction_terminates crW (fun _ => true) (0, 2) 2).2 (by decide)⟩

/-- Claim C7: every filtered extraction on empty source text returns the
empty sequence for any query range, and for any query range with
`start >= end` it returns the empty sequence at once (the loop guard
fails before any tree query); the same holds for the unfiltered
`extract_compound`. -/
theorem c7_empty_cases (cr : CodeRegion) (f : TSNode → Bool) (r : Nat × Nat) :
    (cr.code.isEmpty = true → extract_compounds_by cr f r = []) ∧
    (r.2 ≤ r.1 → extract_compounds_by cr f r = []) ∧
    (cr.code.isEmpty = true → extract_compound cr r = []) ∧
    (r.2 ≤ r.1 → extract_compound cr r = []) := by
  refine ⟨fun h => extract_compounds_by_stop cr f r (Or.inl h),
    fun h => extract_compounds_by_stop cr f r (Or.inr h), ?_, ?_⟩
  · intro h
    rw [extract_compound]
    exact extract_compounds_by_stop cr (fun _ => true) r (Or.inl h)
  · intro h
    rw [extract_compound]
    exact extract_compounds_by_stop cr (fun _ => true) r (Or.inr h)

/-- Closed instance of `c7_empty_cases`: empty source with a non-empty
range, and non-empty source with an inverted range. -/
theorem c7_empty_cases_witness :
    extract_compounds_by crE (fun _ => true) (0, 5) = [] ∧
    extract_compound crW (7, 3) = [] :=
  ⟨(c7_empty_cases crE (fun _ => true) (0, 5)).1 rfl,
   (c7_empty_cases crW (fun _ => true) (7, 3)).2.2.2 (by decide)⟩

/-- Claim C8: every region returned by a filtered extraction is the
matched node's complete byte span `[start byte, end byte)` — its length
is the full `end byte - start byte`, independent of the query range —
and the matched nodes come out in strictly increasing line order. -/
theorem c8_full_span_ordered (cr : CodeRegion) (f : TSNode → Bool)
    (r : Nat × Nat) :
    (∀ region ∈ extract_compounds_by cr f r,
      ∃ n ∈ extract_nodes cr r, f n = true ∧
        region = (cr.code.drop n.startByte).take (n.endByte - n.startByte) ∧
        region.length = n.endByte - n.startByte) ∧
    List.Chain' (fun a b => a.endRow < b.endRow) (extract_nodes cr r) := by
  constructor
  · intro region hreg
    rw [extract_compounds_by_eq_nodes] at hreg
    obtain ⟨n, hn, rfl⟩ := List.mem_map.mp hreg
    have hnf := List.mem_filter.mp hn
    refine ⟨n, hnf.1, hnf.2, rfl, ?_⟩
    obtain ⟨s, rfl⟩ := extract_nodes_are_lookups cr r n hnf.1
    have h1 := cr.wf_bytes s
    have h2 := cr.wf_len s
    rw [extract_code_from_node, List.length_take, List.length_drop]
    omega
  · exact extract_nodes_chain cr r

/-- Closed instance of `c8_full_span_ordered` on the fixture `crW`: the
returned region is `nodeW`'s complete 3-byte span even though the query
range is only `[0, 2)`. -/
theorem c8_full_span_ordered_witness :
    ∃ n ∈ extract_nodes crW (0, 2), (fun _ => true) n = true ∧
      ([104, 105, 33] : List Nat) =
        (crW.code.drop n.startByte).take (n.endByte - n.startByte) ∧
      ([104, 105, 33] : List Nat).length = n.endByte - n.startByte := by
  have hfuel := extractCompoundsFuel_eq crW (fun _ => true) (0, 2) 2 (by decide)
  have hval : extractCompoundsFuel crW (fun _ => true) 2 (0, 2) =
      some [[104, 105, 33]] := by decide
  have heq : extract_compounds_by crW (fun _ => true) (0, 2) =
      [[104, 105, 33]] := Option.some.inj (hfuel.symm.trans hval)
  exact (c8_full_span_ordered crW (fun _ => true) (0, 2)).1 [104, 105, 33]
    (by rw [heq]; exact List.mem_singleton.mpr rfl)

/-- Claim C9: the walk advances identically whatever the filter does, so
a filtered extraction is the filter-selected subsequence of the
unfiltered one: both map `extract_code_from_node` over the same matched
node sequence, and `extract_functions` is a subsequence of
`extract_compound`. -/
theorem c9_filter_subsequence (cr : CodeRegion) (f : TSNode → Bool)
    (r : Nat × Nat) :
    extract_compounds_by cr f r =
      ((extract_nodes cr r).filter f).map (extract_code_from_node cr) ∧
    extract_compound cr r = (extract_nodes cr r).map (extract_code_from_node cr) ∧
    (extract_compounds_by cr f r).Sublist (extract_compound cr r) ∧
    (extract_functions cr r).Sublist (extract_compound cr r) := by
  have h2 : extract_compound cr r =
      (extract_nodes cr r).map (extract_code_from_node cr) := by
    rw [extract_compound, extract_compounds_by_eq_nodes]
    simp
  refine ⟨extract_compounds_by_eq_nodes cr f r, h2, ?_, ?_⟩
  · rw [extract_compounds_by_eq_nodes cr f r, h2]
    exact ((extract_nodes cr r).filter_sublist).map (extract_code_from_node cr)
  · rw [extract_functions, extract_compounds_by_eq_nodes, h2]
    exact ((extract_nodes cr r).filter_sublist).map (extract_code_from_node cr)

/-- Claim C10: `ranges` and `extract_compound` are pure `&self` methods:
called twice on the same receiver they return identical outputs, and the
receiver — source lines, touched lines, source text and tree — is
returned unchanged. -/
theorem c10_pure_idempotent (cs : ChangeSet) (cr : CodeRegion)
    (r : Nat × Nat) :
    (ChangeSet.ranges_call cs).2 = cs ∧
    (ChangeSet.ranges_call ((ChangeSet.ranges_call cs).2)).1 =
      (ChangeSet.ranges_call cs).1 ∧
    (extract_compound_call cr r).2 = cr ∧
    (extract_compound_call ((extract_compound_call cr r).2) r).1 =
      (extract_compound_call cr r).1 :=
  ⟨rfl, rfl, rfl, rfl⟩
